import Mathlib

/-!
Shallow embedding of the stock/price reconciliation and batching core of the
`seller-apis` repository (`src/seller.py` for the Ozon marketplace,
`src/market.py` for Yandex Market), together with theorems settling the
specification claims about it.

Modelling conventions:
* A feed row (`watch_remnants` element) is a `Watch` record holding the three
  fields the core reads: `Код` (code), `Количество` (quantity), `Цена` (price),
  all strings as in the spreadsheet.
* The `offer_ids` collection produced by `get_offer_ids` is a Python *list*
  of strings; it is embedded as `List String`.  Python's `x in lst`,
  `lst.remove(x)` (remove first occurrence) become `∈` and `List.erase`.
  The "set" reading of the spec corresponds to a `Nodup` hypothesis.
* Mutation of `offer_ids` is made explicit by state passing: functions that
  mutate it also return its final state.
* Python `int(s)` raising `ValueError`, and hence any function that can raise,
  is embedded with `Option` (`none` = exception propagates).
-/

namespace SellerApis

/-- One row of the external inventory feed (`watch_remnants` element):
the fields `Код`, `Количество`, `Цена` read by the reconciliation core. -/
structure Watch where
  code : String
  quantity : String
  price : String
deriving DecidableEq, Repr

/-- Base-10 value of a digit list (most significant first). -/
def digitsVal (ds : List Char) : Nat :=
  ds.foldl (fun acc c => 10 * acc + (c.toNat - Char.toNat '0')) 0

/-- Embedding of Python `int(s)` on the string forms this feed produces:
an optional leading `-` followed by one or more ASCII digits parses to that
base-10 integer; any other string raises `ValueError` (`none`). -/
def parseInt (s : String) : Option Int :=
  match s.data with
  | [] => none
  | '-' :: ds =>
      if ds ≠ [] ∧ ds.all Char.isDigit then some (-(digitsVal ds : Int)) else none
  | ds =>
      if ds.all Char.isDigit then some ((digitsVal ds : Int)) else none

/-- The quantity-normalization rule shared by `seller.create_stocks`
(lines 176-182) and `market.create_stocks` (lines 165-171):
`">10"` ↦ 100, `"1"` ↦ 0, otherwise `int(count)`. -/
def normalizeCount (count : String) : Option Int :=
  if count = ">10" then some 100
  else if count = "1" then some 0
  else parseInt count

/-- An element of the `stocks` list built by `seller.create_stocks`:
`{"offer_id": ..., "stock": ...}`. -/
structure StockUpdate where
  offer_id : String
  stock : Int
deriving DecidableEq, Repr

/-- First loop of `seller.create_stocks` (lines 174-184): for each watch whose
code is in `offer_ids`, normalize the quantity, append a stock entry and
remove the code from `offer_ids`.  State-passing embedding of the mutation;
`none` models the `ValueError` from `int(...)` propagating. -/
def createStocksLoop : List Watch → List String → Option (List StockUpdate × List String)
  | [], offer_ids => some ([], offer_ids)
  | w :: ws, offer_ids =>
      if w.code ∈ offer_ids then
        match normalizeCount w.quantity with
        | none => none
        | some stock =>
            match createStocksLoop ws (offer_ids.erase w.code) with
            | none => none
            | some (stocks, rest) => some (⟨w.code, stock⟩ :: stocks, rest)
      else createStocksLoop ws offer_ids

/-- Embedding of `seller.create_stocks` (lines 153-188): the matched-record loop followed by
the zero-stock entries for every identifier still in `offer_ids`.  Returns the
stock list together with the final state of the mutated `offer_ids`. -/
def create_stocks (watch_remnants : List Watch) (offer_ids : List String) :
    Option (List StockUpdate × List String) :=
  match createStocksLoop watch_remnants offer_ids with
  | none => none
  | some (stocks, rest) => some (stocks ++ rest.map (fun i => ⟨i, 0⟩), rest)

/-- One element of the `items` list inside a Yandex stock entry. -/
structure MarketStockItem where
  count : Int
  type : String
  updatedAt : String
deriving DecidableEq, Repr

/-- An element of the `stocks` list built by `market.create_stocks`:
`{"sku": ..., "warehouseId": ..., "items": [...]}`. -/
structure MarketStock where
  sku : String
  warehouseId : String
  items : List MarketStockItem
deriving DecidableEq, Repr

/-- The stock entry `market.create_stocks` appends for a given sku and count
(`warehouse_id` and the timestamp `date` are fixed for the whole call). -/
def marketStockOf (warehouse_id date sku : String) (stock : Int) : MarketStock :=
  ⟨sku, warehouse_id, [⟨stock, "FIT", date⟩]⟩

/-- First loop of `market.create_stocks` (lines 163-185): same match/normalize/
remove logic as the Ozon variant, but emitting Yandex-shaped entries. -/
def marketCreateStocksLoop (warehouse_id date : String) :
    List Watch → List String → Option (List MarketStock × List String)
  | [], offer_ids => some ([], offer_ids)
  | w :: ws, offer_ids =>
      if w.code ∈ offer_ids then
        match normalizeCount w.quantity with
        | none => none
        | some stock =>
            match marketCreateStocksLoop warehouse_id date ws (offer_ids.erase w.code) with
            | none => none
            | some (stocks, rest) =>
                some (marketStockOf warehouse_id date w.code stock :: stocks, rest)
      else marketCreateStocksLoop warehouse_id date ws offer_ids

/-- Embedding of `market.create_stocks` (lines 136-201).  The `date` computed once at the
top of the function is passed in as a parameter. -/
def market_create_stocks (watch_remnants : List Watch) (offer_ids : List String)
    (warehouse_id date : String) : Option (List MarketStock × List String) :=
  match marketCreateStocksLoop warehouse_id date watch_remnants offer_ids with
  | none => none
  | some (stocks, rest) =>
      some (stocks ++ rest.map (fun i => marketStockOf warehouse_id date i 0), rest)

/-- Embedding of Python `price.split(".")` on the character list: split into
the (possibly empty) runs between `'.'` occurrences. -/
def splitDot : List Char → List (List Char)
  | [] => [[]]
  | c :: cs =>
      if c = '.' then [] :: splitDot cs
      else
        match splitDot cs with
        | [] => [[c]]
        | p :: ps => (c :: p) :: ps

/-- Embedding of `seller.price_conversion` (lines 218-235):
`re.sub("[^0-9]", "", price.split(".")[0])` — take the part of the string
before the first `'.'` and keep only the ASCII digits. -/
def price_conversion (price : String) : String :=
  String.mk (((splitDot price.data).headD []).filter Char.isDigit)

/-- An element of the `prices` list built by `seller.create_prices`. -/
structure OzonPrice where
  auto_action_enabled : String
  currency_code : String
  offer_id : String
  old_price : String
  price : String
deriving DecidableEq, Repr

/-- Embedding of `seller.create_prices` (lines 191-215): one price entry per watch whose
code is in `offer_ids`; `offer_ids` is not mutated and nothing can raise. -/
def create_prices (watch_remnants : List Watch) (offer_ids : List String) :
    List OzonPrice :=
  watch_remnants.filterMap fun w =>
    if w.code ∈ offer_ids then
      some ⟨"UNKNOWN", "RUB", w.code, "0", price_conversion w.price⟩
    else none

/-- An element of the `prices` list built by `market.create_prices`
(the commented-out fields of the source dict are omitted). -/
structure MarketPrice where
  id : String
  value : Int
  currencyId : String
deriving DecidableEq, Repr

/-- Embedding of `market.create_prices` (lines 204-235): like the Ozon variant but the
price string is further converted with `int(...)`, which raises on a
digit-free result (`none`). -/
def market_create_prices (watch_remnants : List Watch) (offer_ids : List String) :
    Option (List MarketPrice) :=
  match watch_remnants with
  | [] => some []
  | w :: ws =>
      if w.code ∈ offer_ids then
        match parseInt (price_conversion w.price) with
        | none => none
        | some v =>
            match market_create_prices ws offer_ids with
            | none => none
            | some ps => some (⟨w.code, v, "RUR"⟩ :: ps)
      else market_create_prices ws offer_ids

/-- Embedding of `seller.divide` (lines 238-241): `for i in range(0, len(lst), n): yield
lst[i:i+n]`, i.e. the chunks `lst[0:n], lst[n:2n], ...`.  For `n = 0` the
Python `range` raises `ValueError` before yielding anything; that case is
outside every claim and is embedded as the empty chunk list. -/
def divide (lst : List α) (n : Nat) : List (List α) :=
  match lst with
  | [] => []
  | a :: as =>
      if _h : n = 0 then []
      else (a :: as).take n :: divide ((a :: as).drop n) n
termination_by lst.length
decreasing_by
  simp only [List.length_drop, List.length_cons]
  omega

/-- The price list computed by `seller.main` (lines 292-302): `offer_ids` is
fetched once, `create_stocks` consumes it in place, and `create_prices` is
then called with the *same, already mutated* list. -/
def sellerMainPrices (watch_remnants : List Watch) (offer_ids : List String) :
    Option (List OzonPrice) :=
  match create_stocks watch_remnants offer_ids with
  | none => none
  | some (_, offer_ids') => some (create_prices watch_remnants offer_ids')

/-- Chunking of Ozon stock uploads: `divide(stocks, 100)` in both
`seller.upload_stocks` (line 282) and `seller.main` (line 297). -/
def sellerStockBatches (stocks : List StockUpdate) : List (List StockUpdate) :=
  divide stocks 100

/-- Chunking of Ozon price uploads in `seller.main` (line 301):
`divide(prices, 900)`. -/
def sellerMainPriceBatches (prices : List OzonPrice) : List (List OzonPrice) :=
  divide prices 900

/-- Chunking of Ozon price uploads in `seller.upload_prices` (line 259):
`divide(prices, 1000)`. -/
def sellerUploadPriceBatches (prices : List OzonPrice) : List (List OzonPrice) :=
  divide prices 1000

/-- Chunking of Yandex stock uploads: `divide(stocks, 2000)` in
`market.upload_stocks` (line 282) and in both the FBS and DBS blocks of
`market.main` (lines 311, 320). -/
def marketStockBatches (stocks : List MarketStock) : List (List MarketStock) :=
  divide stocks 2000

/-- Chunking of Yandex price uploads: `divide(prices, 500)` in
`market.upload_prices` (line 254), used for both FBS and DBS accounts. -/
def marketPriceBatches (prices : List MarketPrice) : List (List MarketPrice) :=
  divide prices 500

/-! ### Lemmas about `divide` (the batch partitioner) -/

theorem divide_nil (n : Nat) : divide ([] : List α) n = [] := by
  rw [divide]

theorem divide_ne_nil {lst : List α} {n : Nat} (hl : lst ≠ []) (hn : n ≠ 0) :
    divide lst n = lst.take n :: divide (lst.drop n) n := by
  cases lst with
  | nil => exact absurd rfl hl
  | cons a as =>
      rw [divide]
      simp [hn]

theorem divide_flatten : ∀ (lst : List α) (n : Nat), 0 < n → (divide lst n).flatten = lst
  | [], n, _ => by rw [divide_nil n]; rfl
  | a :: as, n, hn => by
      rw [divide_ne_nil (List.cons_ne_nil a as) (Nat.pos_iff_ne_zero.mp hn)]
      rw [List.flatten_cons, divide_flatten ((a :: as).drop n) n hn, List.take_append_drop]
termination_by lst _ _ => lst.length
decreasing_by
  simp only [List.length_drop, List.length_cons]
  omega

theorem divide_chunk_le : ∀ (lst : List α) (n : Nat), 0 < n →
    ∀ c ∈ divide lst n, c.length ≤ n ∧ c ≠ []
  | [], _, _ => by intro c hc; simp [divide_nil] at hc
  | a :: as, n, hn => by
      intro c hc
      rw [divide_ne_nil (List.cons_ne_nil a as) (Nat.pos_iff_ne_zero.mp hn)] at hc
      rcases List.mem_cons.mp hc with h | h
      · subst h
        constructor
        · rw [List.length_take]; omega
        · cases n with
          | zero => omega
          | succ m => simp [List.take_cons]
      · exact divide_chunk_le ((a :: as).drop n) n hn c h
termination_by lst _ _ => lst.length
decreasing_by
  simp only [List.length_drop, List.length_cons]
  omega

theorem divide_eq_nil_of_arg_nil {lst : List α} {n : Nat}
    (h : lst = []) : divide lst n = [] := by
  subst h; exact divide_nil n

theorem divide_dropLast_length : ∀ (lst : List α) (n : Nat), 0 < n →
    ∀ c ∈ (divide lst n).dropLast, c.length = n
  | [], _, _ => by intro c hc; simp [divide_nil] at hc
  | a :: as, n, hn => by
      intro c hc
      rw [divide_ne_nil (List.cons_ne_nil a as) (Nat.pos_iff_ne_zero.mp hn)] at hc
      cases hrest : divide ((a :: as).drop n) n with
      | nil => rw [hrest] at hc; simp at hc
      | cons r rs =>
          rw [hrest] at hc
          have hdrop : (a :: as).drop n ≠ [] := by
            intro hd
            rw [divide_eq_nil_of_arg_nil hd] at hrest
            exact List.cons_ne_nil r rs hrest.symm
          have hlen : n < (a :: as).length := by
            have := List.length_pos.mpr hdrop
            rw [List.length_drop] at this
            omega
          rw [List.dropLast_cons_of_ne_nil (List.cons_ne_nil r rs)] at hc
          rcases List.mem_cons.mp hc with h | h
          · subst h
            rw [List.length_take]
            omega
          · rw [← hrest] at h
            exact divide_dropLast_length ((a :: as).drop n) n hn c h
termination_by lst _ _ => lst.length
decreasing_by
  simp only [List.length_drop, List.length_cons]
  omega

theorem divide_map_length_step {lst : List α} {n : Nat} (hl : lst ≠ []) (hn : n ≠ 0) :
    (divide lst n).map List.length
      = min n lst.length :: (divide (lst.drop n) n).map List.length := by
  rw [divide_ne_nil hl hn, List.map_cons, List.length_take]

theorem divide_range2500 :
    (divide (List.range 2500) 1000).map List.length = [1000, 1000, 500] := by
  have h0 : (List.range 2500).length = 2500 := List.length_range 2500
  have hne : List.range 2500 ≠ [] := by
    intro h; rw [h] at h0; simp at h0
  rw [divide_map_length_step hne (by omega)]
  have h1 : ((List.range 2500).drop 1000).length = 1500 := by
    rw [List.length_drop, h0]
  have hne1 : (List.range 2500).drop 1000 ≠ [] := by
    intro h; rw [h] at h1; simp at h1
  rw [divide_map_length_step hne1 (by omega)]
  have h2 : (((List.range 2500).drop 1000).drop 1000).length = 500 := by
    rw [List.length_drop, h1]
  have hne2 : ((List.range 2500).drop 1000).drop 1000 ≠ [] := by
    intro h; rw [h] at h2; simp at h2
  rw [divide_map_length_step hne2 (by omega)]
  have h3 : ((((List.range 2500).drop 1000).drop 1000).drop 1000).length = 0 := by
    rw [List.length_drop, h2]
  rw [divide_eq_nil_of_arg_nil (List.length_eq_zero.mp h3)]
  rw [h0, h1, h2]
  rfl

/-! ### Lemmas about `splitDot` and `price_conversion` -/

/-- Written from the spec's wording for the price-normalization rule, not from
the code: keep the portion of the string strictly before the first `'.'`
character, then strip every character that is not an ASCII digit `0`-`9`. -/
def specPriceDigits (s : String) : String :=
  String.mk ((s.data.takeWhile (fun ch => ch != '.')).filter
    (fun ch => decide ('0' ≤ ch ∧ ch ≤ '9')))

theorem splitDot_headD :
    ∀ l : List Char, (splitDot l).headD [] = l.takeWhile (fun ch => ch != '.')
  | [] => rfl
  | c :: cs => by
      by_cases hc : c = '.'
      · subst hc
        simp [splitDot, List.takeWhile_cons]
      · rw [List.takeWhile_cons]
        have hbne : (c != '.') = true := bne_iff_ne.mpr hc
        rw [hbne]
        simp only [if_true]
        rw [splitDot]
        rw [if_neg hc]
        cases h : splitDot cs with
        | nil =>
            have h2 := splitDot_headD cs
            rw [h] at h2
            simp only [List.headD_nil] at h2
            simp [← h2]
        | cons p ps =>
            have h2 := splitDot_headD cs
            rw [h] at h2
            simp only [List.headD_cons] at h2
            simp [← h2]

theorem isDigit_eq_range (ch : Char) :
    ch.isDigit = decide ('0' ≤ ch ∧ ch ≤ '9') := by
  simp [Char.isDigit, Char.le_def]

theorem price_conversion_eq_spec (s : String) :
    price_conversion s = specPriceDigits s := by
  unfold price_conversion specPriceDigits
  rw [splitDot_headD]
  congr 1
  exact List.filter_congr fun ch _ => isDigit_eq_range ch

/-! ### Lemmas about the `create_stocks` matching loop -/

/-- Every stock entry emitted by the matching loop carries an identifier that
was in `offer_ids` when the loop started. -/
theorem createStocksLoop_mem :
    ∀ (ws : List Watch) (ids sts rest : _),
      createStocksLoop ws ids = some (sts, rest) →
      ∀ u ∈ sts, u.offer_id ∈ ids := by
  intro ws
  induction ws with
  | nil =>
      intro ids sts rest h u hu
      simp only [createStocksLoop, Option.some.injEq, Prod.mk.injEq] at h
      rw [← h.1] at hu
      simp at hu
  | cons w ws ih =>
      intro ids sts rest h u hu
      simp only [createStocksLoop] at h
      by_cases hw : w.code ∈ ids
      · rw [if_pos hw] at h
        cases hq : normalizeCount w.quantity with
        | none => rw [hq] at h; simp at h
        | some stock =>
            rw [hq] at h
            cases hrec : createStocksLoop ws (ids.erase w.code) with
            | none => rw [hrec] at h; simp at h
            | some pr =>
                obtain ⟨sts', rest'⟩ := pr
                rw [hrec] at h
                simp only [Option.some.injEq, Prod.mk.injEq] at h
                rw [← h.1] at hu
                rcases List.mem_cons.mp hu with h1 | h1
                · rw [h1]; exact hw
                · exact List.mem_of_mem_erase (ih _ _ _ hrec u h1)
      · rw [if_neg hw] at h
        exact ih _ _ _ h u hu

/-- The identifiers emitted by the matching loop, followed by the leftover
identifiers, are a permutation of the original `offer_ids`. -/
theorem createStocksLoop_perm :
    ∀ (ws : List Watch) (ids sts rest : _), ids.Nodup →
      createStocksLoop ws ids = some (sts, rest) →
      List.Perm (sts.map StockUpdate.offer_id ++ rest) ids := by
  intro ws
  induction ws with
  | nil =>
      intro ids sts rest _ h
      simp only [createStocksLoop, Option.some.injEq, Prod.mk.injEq] at h
      rw [← h.1, ← h.2]
      simp
  | cons w ws ih =>
      intro ids sts rest hnd h
      simp only [createStocksLoop] at h
      by_cases hw : w.code ∈ ids
      · rw [if_pos hw] at h
        cases hq : normalizeCount w.quantity with
        | none => rw [hq] at h; simp at h
        | some stock =>
            rw [hq] at h
            cases hrec : createStocksLoop ws (ids.erase w.code) with
            | none => rw [hrec] at h; simp at h
            | some pr =>
                obtain ⟨sts', rest'⟩ := pr
                rw [hrec] at h
                simp only [Option.some.injEq, Prod.mk.injEq] at h
                rw [← h.1, ← h.2]
                have hperm := ih (ids.erase w.code) sts' rest' (hnd.erase w.code) hrec
                have hcons := hperm.cons w.code
                simp only [List.map_cons, List.cons_append]
                exact hcons.trans (List.perm_cons_erase hw).symm
      · rw [if_neg hw] at h
        exact ih _ _ _ hnd h

/-- The leftover identifiers after the matching loop are exactly the original
identifiers matched by no feed record. -/
theorem createStocksLoop_rest :
    ∀ (ws : List Watch) (ids sts rest : _), ids.Nodup →
      createStocksLoop ws ids = some (sts, rest) →
      rest = ids.filter (fun i => ws.all (fun w => w.code != i)) := by
  intro ws
  induction ws with
  | nil =>
      intro ids sts rest _ h
      simp only [createStocksLoop, Option.some.injEq, Prod.mk.injEq] at h
      rw [← h.2]
      simp
  | cons w ws ih =>
      intro ids sts rest hnd h
      simp only [createStocksLoop] at h
      by_cases hw : w.code ∈ ids
      · rw [if_pos hw] at h
        cases hq : normalizeCount w.quantity with
        | none => rw [hq] at h; simp at h
        | some stock =>
            rw [hq] at h
            cases hrec : createStocksLoop ws (ids.erase w.code) with
            | none => rw [hrec] at h; simp at h
            | some pr =>
                obtain ⟨sts', rest'⟩ := pr
                rw [hrec] at h
                simp only [Option.some.injEq, Prod.mk.injEq] at h
                rw [← h.2]
                have hr := ih (ids.erase w.code) sts' rest' (hnd.erase w.code) hrec
                rw [hr, hnd.erase_eq_filter w.code, List.filter_filter]
                refine List.filter_congr ?_
                intro i _
                simp only [List.all_cons, Bool.and_comm]
                congr 1
                by_cases hiw : i = w.code <;> simp [hiw, bne]
                exact fun h2 => hiw h2.symm
      · rw [if_neg hw] at h
        rw [ih _ _ _ hnd h]
        refine List.filter_congr ?_
        intro i hi
        have hne : w.code ≠ i := fun he => hw (he ▸ hi)
        simp [List.all_cons, bne_iff_ne, hne]

/-- The Yandex matching loop is the Ozon matching loop with each entry
re-shaped into the Yandex payload form: both variants run the same match /
normalize / remove logic. -/
theorem marketCreateStocksLoop_eq (warehouse_id date : String) :
    ∀ (ws : List Watch) (ids : List String),
      marketCreateStocksLoop warehouse_id date ws ids
        = (createStocksLoop ws ids).map
            (fun p => (p.1.map (fun u => marketStockOf warehouse_id date u.offer_id u.stock),
                       p.2)) := by
  intro ws
  induction ws with
  | nil => intro ids; rfl
  | cons w ws ih =>
      intro ids
      simp only [marketCreateStocksLoop, createStocksLoop]
      by_cases hw : w.code ∈ ids
      · rw [if_pos hw, if_pos hw]
        cases hq : normalizeCount w.quantity with
        | none => rfl
        | some stock =>
            rw [ih (ids.erase w.code)]
            cases hrec : createStocksLoop ws (ids.erase w.code) with
            | none => rfl
            | some pr => rfl
      · rw [if_neg hw, if_neg hw]
        exact ih ids

/-- Relation lemma: `market.create_stocks` is `seller.create_stocks` with each entry re-shaped
into the Yandex payload form; in particular both leave `offer_ids` in the same
final state. -/
theorem market_create_stocks_eq (warehouse_id date : String)
    (ws : List Watch) (ids : List String) :
    market_create_stocks ws ids warehouse_id date
      = (create_stocks ws ids).map
          (fun p => (p.1.map (fun u => marketStockOf warehouse_id date u.offer_id u.stock),
                     p.2)) := by
  unfold market_create_stocks create_stocks
  rw [marketCreateStocksLoop_eq]
  cases hrec : createStocksLoop ws ids with
  | none => rfl
  | some pr =>
      obtain ⟨sts, rest⟩ := pr
      show some _ = some _
      refine congrArg some (Prod.ext ?_ rfl)
      show sts.map _ ++ rest.map _ = (sts ++ rest.map _).map _
      rw [List.map_append, List.map_map]
      rfl

/-- If the loop succeeds and some feed record carries code `c ∈ offer_ids`,
then the loop's output contains exactly one entry for `c`, and its count comes
from the first record with code `c`. -/
theorem createStocksLoop_first :
    ∀ (ws : List Watch) (ids sts rest : _) (c : String) (w₀ : Watch), ids.Nodup →
      c ∈ ids →
      ws.find? (fun w => w.code == c) = some w₀ →
      createStocksLoop ws ids = some (sts, rest) →
      ∃ v, normalizeCount w₀.quantity = some v ∧
        sts.filter (fun u => u.offer_id == c) = [⟨c, v⟩] := by
  intro ws
  induction ws with
  | nil => intro ids sts rest c w₀ _ _ hf _; simp at hf
  | cons w ws ih =>
      intro ids sts rest c w₀ hnd hc hf h
      simp only [createStocksLoop] at h
      by_cases hwc : w.code = c
      · rw [List.find?_cons_of_pos ws (by simp [hwc])] at hf
        have hw₀ : w₀ = w := by simpa using hf.symm
        rw [hw₀]
        have hw : w.code ∈ ids := hwc ▸ hc
        rw [if_pos hw] at h
        cases hq : normalizeCount w.quantity with
        | none => rw [hq] at h; simp at h
        | some stock =>
            rw [hq] at h
            cases hrec : createStocksLoop ws (ids.erase w.code) with
            | none => rw [hrec] at h; simp at h
            | some pr =>
                obtain ⟨sts', rest'⟩ := pr
                rw [hrec] at h
                simp only [Option.some.injEq, Prod.mk.injEq] at h
                refine ⟨stock, rfl, ?_⟩
                rw [← h.1]
                rw [List.filter_cons]
                have hcc : ((⟨w.code, stock⟩ : StockUpdate).offer_id == c) = true := by
                  simp [hwc]
                rw [hcc]
                simp only [if_true]
                have hnil : sts'.filter (fun u => u.offer_id == c) = [] := by
                  refine List.filter_eq_nil_iff.mpr ?_
                  intro u hu
                  have hmem := createStocksLoop_mem ws (ids.erase w.code) sts' rest' hrec u hu
                  have : u.offer_id ≠ c := by
                    intro he
                    rw [he, ← hwc] at hmem
                    exact hnd.not_mem_erase hmem
                  simp [this]
                rw [hnil, hwc]
      · rw [List.find?_cons_of_neg ws (by simp [hwc])] at hf
        by_cases hw : w.code ∈ ids
        · rw [if_pos hw] at h
          cases hq : normalizeCount w.quantity with
          | none => rw [hq] at h; simp at h
          | some stock =>
              rw [hq] at h
              cases hrec : createStocksLoop ws (ids.erase w.code) with
              | none => rw [hrec] at h; simp at h
              | some pr =>
                  obtain ⟨sts', rest'⟩ := pr
                  rw [hrec] at h
                  simp only [Option.some.injEq, Prod.mk.injEq] at h
                  have hc' : c ∈ ids.erase w.code :=
                    (List.mem_erase_of_ne (fun he => hwc he.symm)).mpr hc
                  obtain ⟨v, hv, hfil⟩ :=
                    ih (ids.erase w.code) sts' rest' c w₀ (hnd.erase w.code) hc' hf hrec
                  refine ⟨v, hv, ?_⟩
                  rw [← h.1, List.filter_cons]
                  have hcc : ((⟨w.code, stock⟩ : StockUpdate).offer_id == c) = false := by
                    simp [hwc]
                  rw [hcc]
                  simpa using hfil
        · rw [if_neg hw] at h
          exact ih ids sts rest c w₀ hnd hc hf h

/-- Every stock entry emitted by the matching loop originates in some feed
record: its identifier is that record's code and its count that record's
normalized quantity. -/
theorem createStocksLoop_codes :
    ∀ (ws : List Watch) (ids sts rest : _),
      createStocksLoop ws ids = some (sts, rest) →
      ∀ u ∈ sts, ∃ w, w ∈ ws ∧ w.code = u.offer_id := by
  intro ws
  induction ws with
  | nil =>
      intro ids sts rest h u hu
      simp only [createStocksLoop, Option.some.injEq, Prod.mk.injEq] at h
      rw [← h.1] at hu
      simp at hu
  | cons w ws ih =>
      intro ids sts rest h u hu
      simp only [createStocksLoop] at h
      by_cases hw : w.code ∈ ids
      · rw [if_pos hw] at h
        cases hq : normalizeCount w.quantity with
        | none => rw [hq] at h; simp at h
        | some stock =>
            rw [hq] at h
            cases hrec : createStocksLoop ws (ids.erase w.code) with
            | none => rw [hrec] at h; simp at h
            | some pr =>
                obtain ⟨sts', rest'⟩ := pr
                rw [hrec] at h
                simp only [Option.some.injEq, Prod.mk.injEq] at h
                rw [← h.1] at hu
                rcases List.mem_cons.mp hu with h1 | h1
                · exact ⟨w, List.mem_cons_self w ws, by rw [h1]⟩
                · obtain ⟨w', hw', hc'⟩ := ih _ _ _ hrec u h1
                  exact ⟨w', List.mem_cons_of_mem w hw', hc'⟩
      · rw [if_neg hw] at h
        obtain ⟨w', hw', hc'⟩ := ih _ _ _ h u hu
        exact ⟨w', List.mem_cons_of_mem w hw', hc'⟩

/-- Inversion for `create_stocks`: a successful run is a successful matching
loop followed by the zero-stock entries for the leftover identifiers. -/
theorem create_stocks_inv {ws : List Watch} {ids sts rest : _}
    (h : create_stocks ws ids = some (sts, rest)) :
    ∃ msts, createStocksLoop ws ids = some (msts, rest) ∧
      sts = msts ++ rest.map (fun i => ⟨i, 0⟩) := by
  unfold create_stocks at h
  cases hrec : createStocksLoop ws ids with
  | none => rw [hrec] at h; simp at h
  | some pr =>
      obtain ⟨msts, rest'⟩ := pr
      rw [hrec] at h
      simp only [Option.some.injEq, Prod.mk.injEq] at h
      obtain ⟨h1, h2⟩ := h
      refine ⟨msts, ?_, ?_⟩
      · rw [h2]
      · rw [← h1, h2]

/-- The identifiers on the full `create_stocks` output are a permutation of
the original `offer_ids`. -/
theorem create_stocks_perm {ws : List Watch} {ids sts rest : _}
    (hids : ids.Nodup) (h : create_stocks ws ids = some (sts, rest)) :
    List.Perm (sts.map StockUpdate.offer_id) ids := by
  obtain ⟨msts, hloop, hsts⟩ := create_stocks_inv h
  have hperm := createStocksLoop_perm ws ids msts rest hids hloop
  rw [hsts, List.map_append, List.map_map]
  rw [show (StockUpdate.offer_id ∘ fun i => (⟨i, 0⟩ : StockUpdate)) = id from rfl,
    List.map_id]
  exact hperm

/-- The final `offer_ids` state of `create_stocks` is exactly the identifiers
matched by no feed record. -/
theorem create_stocks_rest {ws : List Watch} {ids sts rest : _}
    (hids : ids.Nodup) (h : create_stocks ws ids = some (sts, rest)) :
    rest = ids.filter (fun i => ws.all (fun w => w.code != i)) := by
  obtain ⟨msts, hloop, _⟩ := create_stocks_inv h
  exact createStocksLoop_rest ws ids msts rest hids hloop

/-- Filtering the zero-stock block for an identifier it contains exactly once. -/
theorem zeroStocks_filter :
    ∀ (rest : List String) (i : String), rest.Nodup → i ∈ rest →
      (rest.map (fun j => (⟨j, 0⟩ : StockUpdate))).filter
          (fun u => u.offer_id == i) = [⟨i, 0⟩] := by
  intro rest
  induction rest with
  | nil => intro i _ hi; simp at hi
  | cons j rest ih =>
      intro i hnd hi
      simp only [List.map_cons, List.filter_cons]
      by_cases hj : j = i
      · subst hj
        simp only [beq_self_eq_true, if_true]
        have hnotin : j ∉ rest := (List.nodup_cons.mp hnd).1
        have : (rest.map (fun j => (⟨j, 0⟩ : StockUpdate))).filter
            (fun u => u.offer_id == j) = [] := by
          refine List.filter_eq_nil_iff.mpr ?_
          intro u hu
          obtain ⟨j', hj', hju⟩ := List.mem_map.mp hu
          subst hju
          intro hee
          have hjj : j' = j := eq_of_beq hee
          exact hnotin (by rw [← hjj]; exact hj')
        rw [this]
      · have : ((⟨j, 0⟩ : StockUpdate).offer_id == i) = false := by
          simp [hj]
        rw [this]
        simp only [Bool.false_eq_true, if_false]
        have hi' : i ∈ rest := by
          rcases List.mem_cons.mp hi with h | h
          · exact absurd h.symm hj
          · exact h
        exact ih i (List.nodup_cons.mp hnd).2 hi'

/-- Every entry of `seller.create_prices` originates in a feed record whose
code is in `offer_ids`. -/
theorem create_prices_mem {ws : List Watch} {ids : List String} {u : OzonPrice}
    (hu : u ∈ create_prices ws ids) :
    ∃ w, w ∈ ws ∧ w.code ∈ ids ∧ w.code = u.offer_id := by
  unfold create_prices at hu
  obtain ⟨w, hw, hfw⟩ := List.mem_filterMap.mp hu
  by_cases hmem : w.code ∈ ids
  · rw [if_pos hmem] at hfw
    refine ⟨w, hw, hmem, ?_⟩
    cases hfw
    rfl
  · rw [if_neg hmem] at hfw
    cases hfw

/-- On a `Nodup` identifier list, `seller.main` computes its price list from
the leftover identifiers of the stock pass, none of which occurs in the feed,
so the price list is always empty. -/
theorem sellerMainPrices_eq_nil {ws : List Watch} {ids : List String} {ps : List OzonPrice}
    (hids : ids.Nodup) (h : sellerMainPrices ws ids = some ps) : ps = [] := by
  unfold sellerMainPrices at h
  cases hcs : create_stocks ws ids with
  | none => rw [hcs] at h; simp at h
  | some pr =>
      obtain ⟨sts, rest⟩ := pr
      rw [hcs] at h
      simp only [Option.some.injEq] at h
      have hrest := create_stocks_rest hids hcs
      rw [← h]
      rcases hps : create_prices ws rest with _ | ⟨u, us⟩
      · rfl
      · exfalso
        have hu : u ∈ create_prices ws rest := by rw [hps]; simp
        obtain ⟨w, hw, hmem, _⟩ := create_prices_mem hu
        rw [hrest] at hmem
        have := List.of_mem_filter hmem
        rw [List.all_eq_true] at this
        have hfalse := this w hw
        simp at hfalse

/-! ### Claim theorems -/

/-- C1: for a feed with pairwise-distinct codes and a duplicate-free
identifier set `S`, both the Ozon and the Yandex `create_stocks` return a
stock list with exactly one entry per identifier of the original `S` and no
other entries: length `|S|`, each identifier of `S` exactly once, no
identifier twice. -/
theorem claim_C1_stocks_exactly_once (ws : List Watch) (ids : List String)
    (hids : ids.Nodup) (_hcodes : (ws.map Watch.code).Nodup) :
    (∀ sts rest, create_stocks ws ids = some (sts, rest) →
       sts.length = ids.length ∧
       (∀ i ∈ ids, (sts.map StockUpdate.offer_id).count i = 1) ∧
       (∀ s, (sts.map StockUpdate.offer_id).count s ≤ 1) ∧
       (∀ u ∈ sts, u.offer_id ∈ ids)) ∧
    (∀ wh d msts mrest, market_create_stocks ws ids wh d = some (msts, mrest) →
       msts.length = ids.length ∧
       (∀ i ∈ ids, (msts.map MarketStock.sku).count i = 1) ∧
       (∀ s, (msts.map MarketStock.sku).count s ≤ 1) ∧
       (∀ u ∈ msts, u.sku ∈ ids)) := by
  constructor
  · intro sts rest h
    have hperm := create_stocks_perm hids h
    refine ⟨?_, ?_, ?_, ?_⟩
    · rw [← List.length_map sts StockUpdate.offer_id]
      exact hperm.length_eq
    · intro i hi
      rw [hperm.count_eq]
      exact List.count_eq_one_of_mem hids hi
    · intro s
      exact List.nodup_iff_count_le_one.mp (hperm.nodup_iff.mpr hids) s
    · intro u hu
      exact hperm.mem_iff.mp (List.mem_map_of_mem StockUpdate.offer_id hu)
  · intro wh d msts mrest h
    rw [market_create_stocks_eq] at h
    cases hcs : create_stocks ws ids with
    | none => rw [hcs] at h; simp at h
    | some pr =>
        obtain ⟨sts, rest⟩ := pr
        rw [hcs] at h
        have h2 : some ((sts.map fun u => marketStockOf wh d u.offer_id u.stock), rest)
            = some (msts, mrest) := h
        simp only [Option.some.injEq, Prod.mk.injEq] at h2
        obtain ⟨hm, _⟩ := h2
        have hperm := create_stocks_perm hids hcs
        have hmap : msts.map MarketStock.sku = sts.map StockUpdate.offer_id := by
          rw [← hm, List.map_map]
          rfl
        refine ⟨?_, ?_, ?_, ?_⟩
        · rw [← hm, List.length_map, ← List.length_map sts StockUpdate.offer_id]
          exact hperm.length_eq
        · intro i hi
          rw [hmap, hperm.count_eq]
          exact List.count_eq_one_of_mem hids hi
        · intro s
          rw [hmap]
          exact List.nodup_iff_count_le_one.mp (hperm.nodup_iff.mpr hids) s
        · intro u hu
          have : u.sku ∈ msts.map MarketStock.sku := List.mem_map_of_mem MarketStock.sku hu
          rw [hmap] at this
          exact hperm.mem_iff.mp this

/-- Witness for C1 at a concrete feed and identifier list. -/
theorem claim_C1_stocks_exactly_once_witness :
    ([⟨"A", (5 : Int)⟩, ⟨"B", 0⟩] : List StockUpdate).length
      = (["A", "B"] : List String).length :=
  ((claim_C1_stocks_exactly_once [⟨"A", "5", ""⟩] ["A", "B"]
      (by decide) (by decide)).1
    [⟨"A", 5⟩, ⟨"B", 0⟩] ["B"] (by decide)).1

/-- C2: a matched record's stock count is computed by the ordered rules
`">10"` ↦ 100, `"1"` ↦ 0, otherwise base-10 integer parsing of the
descriptor (so `"7"` ↦ 7), a non-numeric descriptor raising a parse error
(`none`); shown on single-record runs of both variants. -/
theorem claim_C2_quantity_rules (c p q wh d : String) :
    (create_stocks [⟨c, ">10", p⟩] [c] = some ([⟨c, 100⟩], []) ∧
     market_create_stocks [⟨c, ">10", p⟩] [c] wh d
       = some ([marketStockOf wh d c 100], [])) ∧
    (create_stocks [⟨c, "1", p⟩] [c] = some ([⟨c, 0⟩], []) ∧
     market_create_stocks [⟨c, "1", p⟩] [c] wh d
       = some ([marketStockOf wh d c 0], [])) ∧
    (create_stocks [⟨c, "7", p⟩] [c] = some ([⟨c, 7⟩], [])) ∧
    (q ≠ ">10" → q ≠ "1" →
       create_stocks [⟨c, q, p⟩] [c]
         = (parseInt q).map (fun v => ([⟨c, v⟩], []))) := by
  refine ⟨⟨?_, ?_⟩, ⟨?_, ?_⟩, ?_, ?_⟩
  · simp [create_stocks, createStocksLoop, normalizeCount]
  · simp [market_create_stocks, marketCreateStocksLoop, normalizeCount]
  · simp [create_stocks, createStocksLoop, normalizeCount]
  · simp [market_create_stocks, marketCreateStocksLoop, normalizeCount]
  · have h7 : normalizeCount "7" = some 7 := by decide
    simp [create_stocks, createStocksLoop, h7]
  · intro h1 h2
    have hn : normalizeCount q = parseInt q := by
      rw [normalizeCount, if_neg h1, if_neg h2]
    cases hpq : parseInt q with
    | none => simp [create_stocks, createStocksLoop, hn, hpq]
    | some v => simp [create_stocks, createStocksLoop, hn, hpq]

/-- Witness for C2 with a non-numeric descriptor. -/
theorem claim_C2_quantity_rules_witness :
    create_stocks [⟨"A", "many", "x"⟩] ["A"]
      = (parseInt "many").map (fun v => ([⟨"A", v⟩], [])) :=
  (claim_C2_quantity_rules "A" "x" "many" "w" "d").2.2.2 (by decide) (by decide)

/-- C3: `price_conversion` keeps only the portion of the string before the
first `'.'` and strips every non-digit from it (stated against a definition
transcribed from the spec's wording), mapping `"5'990.00 руб."` to `"5990"`,
`"1200 руб."` to `"1200"` and `"invalid string"` to `""`. -/
theorem claim_C3_price_conversion :
    (∀ s, price_conversion s = specPriceDigits s) ∧
    price_conversion "5'990.00 руб." = "5990" ∧
    price_conversion "1200 руб." = "1200" ∧
    price_conversion "invalid string" = "" :=
  ⟨price_conversion_eq_spec, by decide, by decide, by decide⟩

/-- C4: for `n > 0`, `divide` yields contiguous non-overlapping slices in
order — their concatenation is the original list — each chunk is nonempty of
length at most `n`, every chunk but the last has length exactly `n`, the
empty list yields no chunks, and a 2500-element list with `n = 1000` yields
chunk sizes 1000, 1000, 500. -/
theorem claim_C4_divide_partition (lst : List α) (n : Nat) (hn : 0 < n) :
    (divide lst n).flatten = lst ∧
    (∀ c ∈ divide lst n, c.length ≤ n ∧ c ≠ []) ∧
    (∀ c ∈ (divide lst n).dropLast, c.length = n) ∧
    divide ([] : List α) n = [] ∧
    (divide (List.range 2500) 1000).map List.length = [1000, 1000, 500] :=
  ⟨divide_flatten lst n hn, divide_chunk_le lst n hn, divide_dropLast_length lst n hn,
    divide_nil n, divide_range2500⟩

/-- Witness for C4 at a concrete list and chunk size. -/
theorem claim_C4_divide_partition_witness :
    (divide [1, 2, 3] 2).flatten = [1, 2, 3] :=
  (claim_C4_divide_partition [1, 2, 3] 2 (by decide)).1

/-- C5 counterexample: `create_stocks` does not empty `offer_ids`.  With an
empty feed and the identifier list `["A"]`, the final state still holds
`"A"`, refuting "after create_stocks returns, the set contains no
elements". -/
theorem claim_C5_counterexample :
    create_stocks [] ["A"] = some ([⟨"A", 0⟩], ["A"]) ∧
    ¬ (∀ (ws : List Watch) (ids : List String) sts rest,
         create_stocks ws ids = some (sts, rest) → rest = []) := by
  refine ⟨by decide, fun hall => ?_⟩
  have := hall [] ["A"] [⟨"A", 0⟩] ["A"] (by decide)
  simp at this

/-- C5 amended: `create_stocks` (both variants) removes exactly the matched
identifiers from `offer_ids`; after the call the set holds exactly the
identifiers that matched no feed record (so it is emptied only when every
identifier matched). -/
theorem claim_C5_final_offer_ids (ws : List Watch) (ids : List String)
    (hids : ids.Nodup) :
    (∀ sts rest, create_stocks ws ids = some (sts, rest) →
       rest = ids.filter (fun i => ws.all (fun w => w.code != i))) ∧
    (∀ wh d msts mrest, market_create_stocks ws ids wh d = some (msts, mrest) →
       mrest = ids.filter (fun i => ws.all (fun w => w.code != i))) := by
  constructor
  · intro sts rest h
    exact create_stocks_rest hids h
  · intro wh d msts mrest h
    rw [market_create_stocks_eq] at h
    cases hcs : create_stocks ws ids with
    | none => rw [hcs] at h; simp at h
    | some pr =>
        obtain ⟨sts, rest⟩ := pr
        rw [hcs] at h
        have h2 : some ((sts.map fun u => marketStockOf wh d u.offer_id u.stock), rest)
            = some (msts, mrest) := h
        simp only [Option.some.injEq, Prod.mk.injEq] at h2
        rw [← h2.2]
        exact create_stocks_rest hids hcs

/-- Witness for the amended C5 at a concrete feed and identifier list. -/
theorem claim_C5_final_offer_ids_witness :
    (["B"] : List String)
      = (["A", "B"] : List String).filter
          (fun i => ([⟨"A", "5", "x"⟩] : List Watch).all (fun w => w.code != i)) :=
  (claim_C5_final_offer_ids [⟨"A", "5", "x"⟩] ["A", "B"] (by decide)).1
    [⟨"A", 5⟩, ⟨"B", 0⟩] ["B"] (by decide)

/-- C6: when the feed holds two or more records with the same code and that
code is in the identifier set, `seller.create_stocks` emits exactly one entry
for it, whose count is normalized from the first such record; the later
duplicates emit nothing. -/
theorem claim_C6_first_occurrence (ws : List Watch) (ids : List String)
    (c : String) (w₀ : Watch) (sts rest : _)
    (hids : ids.Nodup) (hc : c ∈ ids)
    (_hdup : 2 ≤ (ws.filter (fun w => w.code == c)).length)
    (hfirst : ws.find? (fun w => w.code == c) = some w₀)
    (h : create_stocks ws ids = some (sts, rest)) :
    ∃ v, normalizeCount w₀.quantity = some v ∧
      sts.filter (fun u => u.offer_id == c) = [⟨c, v⟩] := by
  obtain ⟨msts, hloop, hsts⟩ := create_stocks_inv h
  obtain ⟨v, hv, hfil⟩ := createStocksLoop_first ws ids msts rest c w₀ hids hc hfirst hloop
  refine ⟨v, hv, ?_⟩
  rw [hsts, List.filter_append, hfil]
  have hrest := createStocksLoop_rest ws ids msts rest hids hloop
  have hcnot : c ∉ rest := by
    rw [hrest]
    intro hmem
    have hall := List.of_mem_filter hmem
    rw [List.all_eq_true] at hall
    have hw₀mem : w₀ ∈ ws := List.mem_of_find?_eq_some hfirst
    have hps := List.find?_some hfirst
    have hw₀c : w₀.code = c := by
      simp only [beq_iff_eq] at hps
      exact hps
    have hbad := hall w₀ hw₀mem
    exact (bne_iff_ne.mp hbad) hw₀c
  have hz : (rest.map (fun i => (⟨i, 0⟩ : StockUpdate))).filter
      (fun u => u.offer_id == c) = [] := by
    refine List.filter_eq_nil_iff.mpr ?_
    intro u hu
    obtain ⟨j, hj, hju⟩ := List.mem_map.mp hu
    subst hju
    intro hee
    exact hcnot (by rw [← eq_of_beq hee]; exact hj)
  rw [hz, List.append_nil]

/-- Witness for C6: a feed with a duplicated code, where only the first
record's quantity is reconciled. -/
theorem claim_C6_first_occurrence_witness :
    ∃ v, normalizeCount "5" = some v ∧
      ([⟨"A", (5 : Int)⟩] : List StockUpdate).filter
        (fun u => u.offer_id == "A") = [⟨"A", v⟩] :=
  claim_C6_first_occurrence [⟨"A", "5", "x"⟩, ⟨"A", "7", "y"⟩] ["A"] "A"
    ⟨"A", "5", "x"⟩ [⟨"A", 5⟩] [] (by decide) (by decide) (by decide)
    (by decide) (by decide)

/-- C7: an identifier matching no feed record gets exactly one StockUpdate,
with count 0, from `seller.create_stocks`, and `seller.create_prices` emits
no price entry for it. -/
theorem claim_C7_unmatched_identifier (ws : List Watch) (ids : List String)
    (i : String) (hids : ids.Nodup) (hi : i ∈ ids)
    (hnom : ∀ w ∈ ws, w.code ≠ i) :
    (∀ sts rest, create_stocks ws ids = some (sts, rest) →
       sts.filter (fun u => u.offer_id == i) = [⟨i, 0⟩]) ∧
    (create_prices ws ids).filter (fun p => p.offer_id == i) = [] := by
  constructor
  · intro sts rest h
    obtain ⟨msts, hloop, hsts⟩ := create_stocks_inv h
    rw [hsts, List.filter_append]
    have h1 : msts.filter (fun u => u.offer_id == i) = [] := by
      refine List.filter_eq_nil_iff.mpr ?_
      intro u hu
      obtain ⟨w, hw, hwc⟩ := createStocksLoop_codes ws ids msts rest hloop u hu
      intro hee
      exact hnom w hw (by rw [hwc]; exact eq_of_beq hee)
    have hrest := createStocksLoop_rest ws ids msts rest hids hloop
    have hinrest : i ∈ rest := by
      rw [hrest]
      refine List.mem_filter.mpr ⟨hi, ?_⟩
      rw [List.all_eq_true]
      intro w hw
      exact bne_iff_ne.mpr (hnom w hw)
    have hrnd : rest.Nodup := by
      rw [hrest]
      exact hids.filter _
    rw [h1, List.nil_append]
    exact zeroStocks_filter rest i hrnd hinrest
  · refine List.filter_eq_nil_iff.mpr ?_
    intro u hu
    obtain ⟨w, hw, _, hwc⟩ := create_prices_mem hu
    intro hee
    exact hnom w hw (by rw [hwc]; exact eq_of_beq hee)

/-- Witness for C7: identifier `"A"` absent from the feed. -/
theorem claim_C7_unmatched_identifier_witness :
    ([⟨"B", (5 : Int)⟩, ⟨"A", 0⟩] : List StockUpdate).filter
        (fun u => u.offer_id == "A") = [⟨"A", 0⟩] :=
  (claim_C7_unmatched_identifier [⟨"B", "5", "x"⟩] ["A", "B"] "A"
      (by decide) (by decide) (by decide)).1
    [⟨"B", 5⟩, ⟨"A", 0⟩] ["A"] (by decide)

/-- C8 (bug evidence): `seller.main` passes the stock-consumed `offer_ids`
to `create_prices`, so its price list comes out empty even though
`create_prices` on a fresh copy of the same identifier list produces a price
entry. -/
theorem claim_C8_prices_see_consumed_set :
    sellerMainPrices [⟨"A", "5", "100.00 руб."⟩] ["A"] = some [] ∧
    create_prices [⟨"A", "5", "100.00 руб."⟩] ["A"]
      = [⟨"UNKNOWN", "RUB", "A", "0", "100"⟩] := by
  constructor
  · decide
  · decide

/-- C9: every chunk handed to a marketplace write endpoint respects that
endpoint's batch limit: Ozon stocks ≤ 100 (main and upload_stocks), Ozon
prices ≤ 900 in main and ≤ 1000 in upload_prices, Yandex stocks ≤ 2000 and
Yandex prices ≤ 500 for both FBS and DBS accounts. -/
theorem claim_C9_batch_limits :
    (∀ stocks : List StockUpdate, ∀ c ∈ sellerStockBatches stocks, c.length ≤ 100) ∧
    (∀ prices : List OzonPrice, ∀ c ∈ sellerMainPriceBatches prices, c.length ≤ 900) ∧
    (∀ prices : List OzonPrice, ∀ c ∈ sellerUploadPriceBatches prices, c.length ≤ 1000) ∧
    (∀ stocks : List MarketStock, ∀ c ∈ marketStockBatches stocks, c.length ≤ 2000) ∧
    (∀ prices : List MarketPrice, ∀ c ∈ marketPriceBatches prices, c.length ≤ 500) := by
  refine ⟨?_, ?_, ?_, ?_, ?_⟩
  · intro l c hc
    exact (divide_chunk_le l 100 (by omega) c hc).1
  · intro l c hc
    exact (divide_chunk_le l 900 (by omega) c hc).1
  · intro l c hc
    exact (divide_chunk_le l 1000 (by omega) c hc).1
  · intro l c hc
    exact (divide_chunk_le l 2000 (by omega) c hc).1
  · intro l c hc
    exact (divide_chunk_le l 500 (by omega) c hc).1

/-- Witness for C9 at concrete singleton payload lists. -/
theorem claim_C9_batch_limits_witness :
    ([(⟨"A", 0⟩ : StockUpdate)] : List StockUpdate).length ≤ 100 ∧
    ([(⟨"U", "R", "A", "0", "1"⟩ : OzonPrice)] : List OzonPrice).length ≤ 900 ∧
    ([(⟨"U", "R", "A", "0", "1"⟩ : OzonPrice)] : List OzonPrice).length ≤ 1000 ∧
    ([marketStockOf "w" "d" "A" 0] : List MarketStock).length ≤ 2000 ∧
    ([(⟨"A", 1, "RUR"⟩ : MarketPrice)] : List MarketPrice).length ≤ 500 :=
  ⟨claim_C9_batch_limits.1 [⟨"A", 0⟩] [⟨"A", 0⟩]
      (by simp [sellerStockBatches, divide]),
   claim_C9_batch_limits.2.1 [⟨"U", "R", "A", "0", "1"⟩] [⟨"U", "R", "A", "0", "1"⟩]
      (by simp [sellerMainPriceBatches, divide]),
   claim_C9_batch_limits.2.2.1 [⟨"U", "R", "A", "0", "1"⟩] [⟨"U", "R", "A", "0", "1"⟩]
      (by simp [sellerUploadPriceBatches, divide]),
   claim_C9_batch_limits.2.2.2.1 [marketStockOf "w" "d" "A" 0]
      [marketStockOf "w" "d" "A" 0] (by simp [marketStockBatches, divide]),
   claim_C9_batch_limits.2.2.2.2 [⟨"A", 1, "RUR"⟩] [⟨"A", 1, "RUR"⟩]
      (by simp [marketPriceBatches, divide])⟩

/-- C10: when a matched record's raw price has no digit before the first
`'.'`, `seller.create_prices` emits an entry whose price field is the empty
string without raising, while `market.create_prices` raises (the `int("")`
conversion) and produces no output. -/
theorem claim_C10_digit_free_price (w : Watch) (ids : List String)
    (hmem : w.code ∈ ids)
    (hp : ∀ ch ∈ w.price.data.takeWhile (fun ch => ch != '.'), ch.isDigit = false) :
    create_prices [w] ids = [⟨"UNKNOWN", "RUB", w.code, "0", ""⟩] ∧
    market_create_prices [w] ids = none := by
  have hpc : price_conversion w.price = "" := by
    unfold price_conversion
    rw [splitDot_headD]
    rw [List.filter_eq_nil_iff.mpr (fun ch hch => by rw [hp ch hch]; exact Bool.false_ne_true)]
  constructor
  · simp [create_prices, hmem, hpc]
  · simp [market_create_prices, hmem, hpc, show parseInt "" = none from rfl]

/-- Witness for C10: price string `"руб."` with no digits before the dot. -/
theorem claim_C10_digit_free_price_witness :
    create_prices [⟨"A", "5", "руб."⟩] ["A"]
        = [⟨"UNKNOWN", "RUB", "A", "0", ""⟩] ∧
    market_create_prices [⟨"A", "5", "руб."⟩] ["A"] = none :=
  claim_C10_digit_free_price ⟨"A", "5", "руб."⟩ ["A"] (by decide) (by decide)

end SellerApis
